import Mathlib

/-!
Verification of the QuantumBlocks QFT-adder construction (`src/main.py`).

The Python program builds quantum gates out of controlled / uncontrolled phase
rotations and QFT blocks, using the qiskit library.  We embed it shallowly:

* a gate built by the nested loops of `AdderPhaseGate` / `ClassicalAdderPhaseGate`
  is the list of rotation instructions it appends (`CPOp` / `POp`), recorded with
  the absolute wire index of control and target and with the exponent `e` of the
  rotation angle `2*pi / 2^e`, exactly as computed by the source;
* the builder functions themselves return `Except BuildError _`, modelling the
  exceptions that can escape them: qiskit's `QuantumRegister(size)` raises a
  `CircuitError` for a negative size (and accepts size `0`), and Python's
  `int str` conversion raises a `ValueError` on the character b that the slice
  `bin(k)[-1:1:-1]` retains exactly when `k < 0`;
* states of the simulated machine are amplitude functions `Nat -> Complex`, a
  computational basis state being the indicator of its index (target register in
  the low `T` bits, summand register above, as in the circuit wiring);
* the qiskit `QFT` gate (`do_swaps=False` variant used by the adders) is the
  standard Fourier matrix with bit-reversed row indexing, its declared inverse
  being the adjoint matrix; applying a `T`-qubit matrix to the low `T` qubits of
  a larger state acts block-diagonally in the high bits.
-/

namespace QuantumBlocks

open Finset

/-- Value (0 or 1) of bit `i` of the natural number `n`. -/
def bit (n i : ℕ) : ℕ := if n.testBit i then 1 else 0

/-- Reversal of the low `T` bits of `y`: bit `i` is sent to position `T - 1 - i`. -/
def bitrev (T y : ℕ) : ℕ := ∑ i in Finset.range T, bit y i * 2 ^ (T - 1 - i)

/-- A controlled phase rotation instruction `cp(2*pi / 2^angleDenExp, control, target)`
appended by `AdderPhaseGate` (src/main.py line 38); `control` and `target` are
absolute wire indices in the built circuit. -/
structure CPOp where
  angleDenExp : ℕ
  control : ℕ
  target : ℕ
deriving DecidableEq, Repr

/-- An uncontrolled phase rotation instruction `p(2*pi / 2^angleDenExp, target)`
appended by `ClassicalAdderPhaseGate` (src/main.py line 55). -/
structure POp where
  angleDenExp : ℕ
  target : ℕ
deriving DecidableEq, Repr

/-- Exceptions escaping the builder functions: qiskit's `CircuitError` (register
size validation) and Python's `ValueError` (failed `int` conversion).  Both are
realizations of the spec's abstract `InvalidArgument` kind. -/
inductive BuildError where
  | circuitError
  | valueError
deriving DecidableEq, Repr

/-- Model of `QuantumRegister(n)` (qiskit): raises `CircuitError` when the
requested size is negative, accepts any size `>= 0` (including `0`). -/
def pyQuantumRegister (n : ℤ) : Except BuildError Unit :=
  if n < 0 then .error .circuitError else .ok ()

/-- Model of `[int(bit) for bit in bin(n)[-1:1:-1]]` for `n >= 0`: the binary
digits of `n`, least-significant first, with `bin(0) = 0b0` giving `[0]`. -/
def pyBinDigits (n : ℕ) : List ℕ := if n = 0 then [0] else Nat.digits 2 n

/-- Model of lines 44-45 of src/main.py for an arbitrary integer `k`.  For
`k < 0`, `bin(k)` is `-0b...` and the slice `[-1:1:-1]` runs down to index 2,
so the sliced string ends with the character b and `int` raises `ValueError`.
For `k >= 0` it yields the reversed (LSB-first) digit string. -/
def pyBits (k : ℤ) : Except BuildError (List ℕ) :=
  if k < 0 then .error .valueError else .ok (pyBinDigits k.toNat)

/-- The instruction list appended by the loops of `AdderPhaseGate`
(src/main.py lines 36-38): for each target index `i < T` and summand index
`j < min (i+1) S`, one `cp(2*pi / 2^(1+i-j), summand[j], target[i])`; wire `i`
is `target_reg[i]` and wire `T + j` is `summand_reg[j]`. -/
def AdderPhaseOps (T S : ℕ) : List CPOp :=
  (List.range T).flatMap fun i =>
    (List.range (min (i + 1) S)).map fun j => ⟨1 + i - j, T + j, i⟩

/-- Model of `AdderPhaseGate(target_reg_length, summand_reg_length)`
(src/main.py lines 24-40): the two `QuantumRegister` constructor calls validate
the lengths, then the nested loops build the gate. -/
def AdderPhaseGate (T S : ℤ) : Except BuildError (List CPOp) := do
  let _ ← pyQuantumRegister T
  let _ ← pyQuantumRegister S
  .ok (AdderPhaseOps T.toNat S.toNat)

/-- The instruction list appended by the loops of `ClassicalAdderPhaseGate`
(src/main.py lines 52-55): for each target index `i < T` and bit index
`j < min (i+1) (len bits)` with `bits[j] = 1`, one `p(2*pi / 2^(1+i-j), target[i])`. -/
def ClassicalAdderPhaseOps (T : ℕ) (bits : List ℕ) : List POp :=
  (List.range T).flatMap fun i =>
    ((List.range (min (i + 1) bits.length)).filter fun j => bits.getD j 0 == 1).map
      fun j => ⟨1 + i - j, i⟩

/-- Model of `ClassicalAdderPhaseGate(target_reg_length, k)` (src/main.py lines
42-57): the bit expansion of `k` is computed first (line 44, failing for `k < 0`),
then the register is validated, then the loops build the gate. -/
def ClassicalAdderPhaseGate (T k : ℤ) : Except BuildError (List POp) := do
  let bits ← pyBits k
  let _ ← pyQuantumRegister T
  .ok (ClassicalAdderPhaseOps T.toNat bits)

/-- Model of the construction-time behaviour of `AdderGate` (src/main.py lines
59-77): registers are created, then the QFT and phase-adder sub-gates; the gate
content is determined by the phase-op list (the QFT blocks are fixed).  Returns
the phase-op list of the built gate. -/
def AdderGate (T S : ℤ) : Except BuildError (List CPOp) := do
  let _ ← pyQuantumRegister T
  let _ ← pyQuantumRegister S
  AdderPhaseGate T S

/-- Model of the construction-time behaviour of `ClassicalAdderGate`
(src/main.py lines 79-93): register creation, then QFT, then the classical
phase-adder sub-gate. -/
def ClassicalAdderGate (T k : ℤ) : Except BuildError (List POp) := do
  let _ ← pyQuantumRegister T
  ClassicalAdderPhaseGate T k

/-- The phase `exp (2 * pi * I * r)`. -/
noncomputable def eTheta (r : ℝ) : ℂ := Complex.exp (2 * Real.pi * Complex.I * r)

/-- Normalization factor `1 / sqrt (2^n)` of the `n`-qubit Fourier matrix. -/
noncomputable def invSqrtN (n : ℕ) : ℝ := (Real.sqrt (2 ^ n))⁻¹

/-- Computational basis state with index `b0`. -/
def basisState (b0 : ℕ) : ℕ → ℂ := fun b => if b = b0 then 1 else 0

/-- Output wire permutation of qiskit's `QFT(n)` circuit: with `do_swaps=True`
the standard transform is produced; with `do_swaps=False` the final swap layer
is omitted, leaving the output wires bit-reversed. -/
def qftPerm (n : ℕ) (doSwaps : Bool) (y : ℕ) : ℕ :=
  if doSwaps then y else bitrev n y

/-- Modelled from the spec: the gate built by `QFTGate(n, do_swaps := ds)`
(src/main.py lines 20-22 delegate to qiskit's `QFT`).  Entry at row `y`, column
`x`: the amplitude of basis `y` in the transform of basis `x`, which is
`exp (2 pi I * x * y' / 2^n) / sqrt (2^n)` with `y'` the (possibly bit-reversed,
per the `do_swaps` convention) row index. -/
noncomputable def QFTGateMat (n : ℕ) (doSwaps : Bool) : ℕ → ℕ → ℂ :=
  fun y x => (invSqrtN n : ℂ) * eTheta (((x * qftPerm n doSwaps y : ℕ) : ℝ) / (2 ^ n : ℝ))

/-- Modelled from the spec: the declared inverse gate `QFT(n).inverse()`, the
adjoint of `QFTGateMat`; entry at row `x`, column `y`. -/
noncomputable def QFTGateInvMat (n : ℕ) (doSwaps : Bool) : ℕ → ℕ → ℂ :=
  fun x y => (invSqrtN n : ℂ) * eTheta (-(((x * qftPerm n doSwaps y : ℕ) : ℝ) / (2 ^ n : ℝ)))

/-- Application of an `n`-qubit matrix to the low `n` qubits of a state: the
high bits `b / 2^n` are untouched block indices. -/
noncomputable def applyMat (n : ℕ) (M : ℕ → ℕ → ℂ) (v : ℕ → ℂ) : ℕ → ℂ :=
  fun b => ∑ x in Finset.range (2 ^ n), M (b % 2 ^ n) x * v (x + 2 ^ n * (b / 2 ^ n))

/-- Diagonal factor of the controlled phase rotation `op` at basis index `c`:
the phase fires exactly when both the control and the target bit of `c` are set. -/
noncomputable def cpFactor (c : ℕ) (op : CPOp) : ℂ :=
  if c.testBit op.control ∧ c.testBit op.target then eTheta ((1 : ℝ) / 2 ^ op.angleDenExp) else 1

/-- Application of one controlled phase rotation to a state. -/
noncomputable def applyCP (op : CPOp) (v : ℕ → ℂ) : ℕ → ℂ := fun c => cpFactor c op * v c

/-- Sequential application of a list of controlled phase rotations (circuit order). -/
noncomputable def applyCPList (ops : List CPOp) (v : ℕ → ℂ) : ℕ → ℂ :=
  ops.foldl (fun w op => applyCP op w) v

/-- Diagonal factor of the uncontrolled phase rotation `op` at basis index `c`. -/
noncomputable def pFactor (c : ℕ) (op : POp) : ℂ :=
  if c.testBit op.target then eTheta ((1 : ℝ) / 2 ^ op.angleDenExp) else 1

/-- Application of one uncontrolled phase rotation to a state. -/
noncomputable def applyP (op : POp) (v : ℕ → ℂ) : ℕ → ℂ := fun c => pFactor c op * v c

/-- Sequential application of a list of uncontrolled phase rotations. -/
noncomputable def applyPList (ops : List POp) (v : ℕ → ℂ) : ℕ → ℂ :=
  ops.foldl (fun w op => applyP op w) v

/-- Action of the gate built by `AdderGate(T, S)` (src/main.py lines 73-75):
forward no-swap QFT on the target wires, the phase-adder rotations, then the
inverse QFT on the target wires. -/
noncomputable def AdderGateApply (T S : ℕ) (v : ℕ → ℂ) : ℕ → ℂ :=
  applyMat T (QFTGateInvMat T false)
    (applyCPList (AdderPhaseOps T S) (applyMat T (QFTGateMat T false) v))

/-- Action of the gate built by `ClassicalAdderGate(T, k)` for `k >= 0`
(src/main.py lines 88-91). -/
noncomputable def ClassicalAdderApply (T k : ℕ) (v : ℕ → ℂ) : ℕ → ℂ :=
  applyMat T (QFTGateInvMat T false)
    (applyPList (ClassicalAdderPhaseOps T (pyBinDigits k)) (applyMat T (QFTGateMat T false) v))

/-- Index `b` with bit `q` cleared. -/
def bitOff (q b : ℕ) : ℕ := if b.testBit q then b - 2 ^ q else b

/-- Index `b` with bit `q` set. -/
def bitOn (q b : ℕ) : ℕ := if b.testBit q then b else b + 2 ^ q

/-- Application of a Hadamard gate on wire `q` (src/main.py line 111 uses
`qc.h`). -/
noncomputable def applyH (q : ℕ) (v : ℕ → ℂ) : ℕ → ℂ := fun b =>
  (invSqrtN 1 : ℂ) * (v (bitOff q b) + (if b.testBit q then -1 else 1) * v (bitOn q b))

/-- State prepared by `main` before the adders (src/main.py lines 102-111):
five wires (target 0-2, summand 3-4) in `|0>`, then `h` on `summand_reg[0]`,
which is wire 3. -/
noncomputable def mainInitState : ℕ → ℂ := applyH 3 (basisState 0)

/-- State of `main`'s circuit just before measurement (src/main.py lines
115-120): `AdderGate(3, 2)` on all wires, then `ClassicalAdderGate(3, 1)` and
`ClassicalAdderGate(3, 2)` on the target wires. -/
noncomputable def mainFinalState : ℕ → ℂ :=
  ClassicalAdderApply 3 2 (ClassicalAdderApply 3 1 (AdderGateApply 3 2 mainInitState))

/-- Probability of measuring the full basis outcome `b`. -/
noncomputable def measureProb (v : ℕ → ℂ) (b : ℕ) : ℝ := Complex.normSq (v b)

/-- Probability that the target register (low `T` wires of a `T + S` wire state)
measures `t`, marginalizing over the summand register. -/
noncomputable def targetProb (T S : ℕ) (v : ℕ → ℂ) (t : ℕ) : ℝ :=
  ∑ s in Finset.range (2 ^ S), measureProb v (t + 2 ^ T * s)

/-! ### Elementary bit arithmetic -/

lemma bit_le_one (n i : ℕ) : bit n i ≤ 1 := by
  unfold bit; split <;> omega

lemma bit_eq_div_mod (n i : ℕ) : bit n i = n / 2 ^ i % 2 := by
  unfold bit
  rcases Nat.mod_two_eq_zero_or_one (n / 2 ^ i) with h | h <;>
    simp [Nat.testBit_to_div_mod, h]

lemma bit_mod_two_pow (n w i : ℕ) (h : i < w) : bit (n % 2 ^ w) i = bit n i := by
  unfold bit
  rw [Nat.testBit_mod_two_pow, decide_eq_true h, Bool.true_and]

lemma bit_div_two_pow (n w j : ℕ) : bit (n / 2 ^ w) j = bit n (w + j) := by
  unfold bit
  rw [← Nat.shiftRight_eq_div_pow, Nat.testBit_shiftRight]

lemma sum_bit_mul_pow_mod : ∀ (w n : ℕ), ∑ j in range w, bit n j * 2 ^ j = n % 2 ^ w := by
  intro w
  induction w with
  | zero => intro n; simp [Nat.mod_one]
  | succ w ih =>
    intro n
    rw [Finset.sum_range_succ']
    have h1 : ∀ j, bit n (j + 1) = bit (n / 2) j := by
      intro j; unfold bit; rw [Nat.testBit_succ]
    have e1 : (∑ j in range w, bit n (j + 1) * 2 ^ (j + 1)) = 2 * (n / 2 % 2 ^ w) := by
      have : (∑ j in range w, bit n (j + 1) * 2 ^ (j + 1))
          = ∑ j in range w, 2 * (bit (n / 2) j * 2 ^ j) :=
        Finset.sum_congr rfl fun j _ => by rw [h1 j, pow_succ]; ring
      rw [this, ← Finset.mul_sum, ih]
    have e0 : bit n 0 * 2 ^ 0 = n % 2 := by
      rw [bit_eq_div_mod]; simp
    rw [e1, e0]
    have hd : 2 * (n / 2) + n % 2 = n := Nat.div_add_mod n 2
    have hd2 : 2 ^ w * (n / 2 / 2 ^ w) + n / 2 % 2 ^ w = n / 2 := Nat.div_add_mod _ _
    have key : n = 2 ^ (w + 1) * (n / 2 / 2 ^ w) + (2 * (n / 2 % 2 ^ w) + n % 2) := by
      rw [pow_succ]
      calc n = 2 * (2 ^ w * (n / 2 / 2 ^ w) + n / 2 % 2 ^ w) + n % 2 := by rw [hd2, hd]
      _ = 2 ^ w * 2 * (n / 2 / 2 ^ w) + (2 * (n / 2 % 2 ^ w) + n % 2) := by ring
    have hb : n / 2 % 2 ^ w < 2 ^ w := Nat.mod_lt _ (Nat.pos_pow_of_pos w (by omega))
    have hr : n % 2 < 2 := Nat.mod_lt _ (by omega)
    have hlt : 2 * (n / 2 % 2 ^ w) + n % 2 < 2 ^ (w + 1) := by
      have : 2 ^ (w + 1) = 2 ^ w * 2 := pow_succ 2 w
      omega
    conv_rhs => rw [key]
    rw [Nat.mul_add_mod, Nat.mod_eq_of_lt hlt]

lemma sum_bit_mul_pow (w n : ℕ) (h : n < 2 ^ w) : ∑ j in range w, bit n j * 2 ^ j = n := by
  rw [sum_bit_mul_pow_mod, Nat.mod_eq_of_lt h]

lemma sum_two_pow (n : ℕ) : ∑ i in range n, 2 ^ i = 2 ^ n - 1 := by
  induction n with
  | zero => simp
  | succ n ih =>
    rw [Finset.sum_range_succ, ih, pow_succ]
    have : 0 < 2 ^ n := Nat.pos_pow_of_pos n (by omega)
    omega

lemma bitrev_lt (T y : ℕ) : bitrev T y < 2 ^ T := by
  have hle : bitrev T y ≤ ∑ i in range T, 2 ^ (T - 1 - i) := by
    refine Finset.sum_le_sum fun i _ => ?_
    have h := bit_le_one y i
    calc bit y i * 2 ^ (T - 1 - i) ≤ 1 * 2 ^ (T - 1 - i) := Nat.mul_le_mul_right _ h
      _ = 2 ^ (T - 1 - i) := one_mul _
  have hrefl : (∑ i in range T, 2 ^ (T - 1 - i)) = ∑ i in range T, 2 ^ i :=
    Finset.sum_range_reflect (fun i => 2 ^ i) T
  have hpos : 0 < 2 ^ T := Nat.pos_pow_of_pos T (by omega)
  have := sum_two_pow T
  omega

lemma bitrev_reflect (T y : ℕ) : bitrev T y = ∑ m in range T, bit y (T - 1 - m) * 2 ^ m := by
  unfold bitrev
  rw [← Finset.sum_range_reflect (fun m => bit y (T - 1 - m) * 2 ^ m) T]
  refine Finset.sum_congr rfl fun i hi => ?_
  have hi' := Finset.mem_range.mp hi
  have harg : T - 1 - (T - 1 - i) = i := by omega
  simp only [harg]

lemma bit_of_sum : ∀ (w : ℕ) (f : ℕ → ℕ), (∀ m, f m ≤ 1) →
    ∀ i, i < w → bit (∑ m in range w, f m * 2 ^ m) i = f i := by
  intro w
  induction w with
  | zero => intro f hf i hi; omega
  | succ w ih =>
    intro f hf i hi
    rw [Finset.sum_range_succ']
    have hsum : (∑ m in range w, f (m + 1) * 2 ^ (m + 1)) + f 0 * 2 ^ 0
        = 2 * (∑ m in range w, f (m + 1) * 2 ^ m) + f 0 := by
      have h : (∑ m in range w, f (m + 1) * 2 ^ (m + 1))
          = ∑ m in range w, 2 * (f (m + 1) * 2 ^ m) :=
        Finset.sum_congr rfl fun m _ => by rw [pow_succ]; ring
      rw [h, ← Finset.mul_sum]; simp
    rw [hsum]
    rcases i with _ | i
    · rw [bit_eq_div_mod]
      simp only [pow_zero, Nat.div_one]
      have := hf 0
      omega
    · have h0 := hf 0
      have step : bit (2 * (∑ m in range w, f (m + 1) * 2 ^ m) + f 0) (i + 1)
          = bit (∑ m in range w, f (m + 1) * 2 ^ m) i := by
        unfold bit
        rw [Nat.testBit_succ]
        have hdiv : (2 * (∑ m in range w, f (m + 1) * 2 ^ m) + f 0) / 2
            = ∑ m in range w, f (m + 1) * 2 ^ m := by omega
        rw [hdiv]
      rw [step, ih (fun m => f (m + 1)) (fun m => hf (m + 1)) i (by omega)]

lemma bit_bitrev (T y i : ℕ) (hi : i < T) : bit (bitrev T y) i = bit y (T - 1 - i) := by
  rw [bitrev_reflect]
  exact bit_of_sum T (fun m => bit y (T - 1 - m)) (fun m => bit_le_one _ _) i hi

lemma bitrev_bitrev (T y : ℕ) (h : y < 2 ^ T) : bitrev T (bitrev T y) = y := by
  conv_lhs => rw [bitrev]
  have e1 : (∑ i in range T, bit (bitrev T y) i * 2 ^ (T - 1 - i))
      = ∑ i in range T, bit y (T - 1 - i) * 2 ^ (T - 1 - i) :=
    Finset.sum_congr rfl fun i hi => by rw [bit_bitrev T y i (Finset.mem_range.mp hi)]
  have e2 : (∑ i in range T, bit y (T - 1 - i) * 2 ^ (T - 1 - i))
      = ∑ i in range T, bit y i * 2 ^ i :=
    Finset.sum_range_reflect (fun i => bit y i * 2 ^ i) T
  rw [e1, e2, sum_bit_mul_pow T y h]

lemma qftPerm_lt (n : ℕ) (ds : Bool) (y : ℕ) (hy : y < 2 ^ n) : qftPerm n ds y < 2 ^ n := by
  unfold qftPerm; split
  · exact hy
  · exact bitrev_lt n y

lemma qftPerm_invol (n : ℕ) (ds : Bool) (y : ℕ) (hy : y < 2 ^ n) :
    qftPerm n ds (qftPerm n ds y) = y := by
  unfold qftPerm; split
  · rfl
  · exact bitrev_bitrev n y hy

/-! ### Binary digit list produced by `bin(k)[-1:1:-1]` -/

lemma digits_two_getD : ∀ (j n : ℕ), (Nat.digits 2 n).getD j 0 = n / 2 ^ j % 2 := by
  intro j
  induction j with
  | zero =>
    intro n
    rcases Nat.eq_zero_or_pos n with h | h
    · subst h; simp
    · rw [Nat.digits_def' (by omega : 1 < 2) h]; simp
  | succ j ih =>
    intro n
    rcases Nat.eq_zero_or_pos n with h | h
    · subst h; simp
    · rw [Nat.digits_def' (by omega : 1 < 2) h]
      simp only [List.getD_cons_succ]
      rw [ih (n / 2), Nat.div_div_eq_div_mul, ← pow_succ']

lemma pyBinDigits_getD (k j : ℕ) : (pyBinDigits k).getD j 0 = k / 2 ^ j % 2 := by
  unfold pyBinDigits
  split
  · subst ‹k = 0›
    rcases j with _ | j <;> simp
  · exact digits_two_getD j k

lemma pyBinDigits_le_one (k j : ℕ) : (pyBinDigits k).getD j 0 ≤ 1 := by
  rw [pyBinDigits_getD]; omega

lemma pyBinDigits_lt (k : ℕ) : k < 2 ^ (pyBinDigits k).length := by
  unfold pyBinDigits
  split
  · subst ‹k = 0›; simp
  · exact Nat.lt_base_pow_length_digits (by omega)

lemma pyBinDigits_sum (k : ℕ) :
    ∑ j in range (pyBinDigits k).length, (pyBinDigits k).getD j 0 * 2 ^ j = k := by
  have e : (∑ j in range (pyBinDigits k).length, (pyBinDigits k).getD j 0 * 2 ^ j)
      = ∑ j in range (pyBinDigits k).length, bit k j * 2 ^ j :=
    Finset.sum_congr rfl fun j _ => by rw [pyBinDigits_getD, bit_eq_div_mod]
  rw [e, sum_bit_mul_pow _ _ (pyBinDigits_lt k)]

/-! ### Structure of the built instruction lists -/

lemma mem_adderPhaseOps {T S : ℕ} {op : CPOp} :
    op ∈ AdderPhaseOps T S ↔
      ∃ i j, i < T ∧ j < min (i + 1) S ∧ op = ⟨1 + i - j, T + j, i⟩ := by
  constructor
  · intro h
    rcases List.mem_flatMap.mp h with ⟨i, hi, hmem⟩
    rcases List.mem_map.mp hmem with ⟨j, hj, rfl⟩
    exact ⟨i, j, List.mem_range.mp hi, List.mem_range.mp hj, rfl⟩
  · rintro ⟨i, j, hi, hj, rfl⟩
    exact List.mem_flatMap.mpr ⟨i, List.mem_range.mpr hi,
      List.mem_map.mpr ⟨j, List.mem_range.mpr hj, rfl⟩⟩

lemma nodup_adderPhaseOps (T S : ℕ) : (AdderPhaseOps T S).Nodup := by
  rw [AdderPhaseOps, List.nodup_flatMap]
  constructor
  · intro i _
    refine List.Nodup.map ?_ (List.nodup_range _)
    intro a b hab
    have := congrArg CPOp.control hab
    simpa using this
  · refine (List.pairwise_lt_range T).imp ?_
    intro a b hab op hopa hopb
    rcases List.mem_map.mp hopa with ⟨j, _, rfl⟩
    rcases List.mem_map.mp hopb with ⟨j', _, h⟩
    have := congrArg CPOp.target h
    simp only at this
    omega

lemma mem_classicalAdderPhaseOps {T : ℕ} {bits : List ℕ} {op : POp} :
    op ∈ ClassicalAdderPhaseOps T bits ↔
      ∃ i j, i < T ∧ j < min (i + 1) bits.length ∧ bits.getD j 0 = 1 ∧ op = ⟨1 + i - j, i⟩ := by
  constructor
  · intro h
    rcases List.mem_flatMap.mp h with ⟨i, hi, hmem⟩
    rcases List.mem_map.mp hmem with ⟨j, hj, rfl⟩
    have hj' := List.mem_filter.mp hj
    refine ⟨i, j, List.mem_range.mp hi, List.mem_range.mp hj'.1, ?_, rfl⟩
    have := hj'.2
    simpa using this
  · rintro ⟨i, j, hi, hj, hb, rfl⟩
    exact List.mem_flatMap.mpr ⟨i, List.mem_range.mpr hi,
      List.mem_map.mpr ⟨j, List.mem_filter.mpr ⟨List.mem_range.mpr hj, by simpa using hb⟩, rfl⟩⟩

lemma nodup_classicalAdderPhaseOps (T : ℕ) (bits : List ℕ) :
    (ClassicalAdderPhaseOps T bits).Nodup := by
  rw [ClassicalAdderPhaseOps, List.nodup_flatMap]
  constructor
  · intro i _
    refine List.Nodup.map_on ?_ ((List.nodup_range _).filter _)
    intro a ha b hb hab
    have ha' := List.mem_range.mp (List.mem_filter.mp ha).1
    have hb' := List.mem_range.mp (List.mem_filter.mp hb).1
    have := congrArg POp.angleDenExp hab
    simp only at this
    omega
  · refine (List.pairwise_lt_range T).imp ?_
    intro a b hab op hopa hopb
    rcases List.mem_map.mp hopa with ⟨j, _, rfl⟩
    rcases List.mem_map.mp hopb with ⟨j', _, h⟩
    have := congrArg POp.target h
    simp only at this
    omega

/-! ### Phase arithmetic -/

lemma eTheta_zero : eTheta 0 = 1 := by
  unfold eTheta
  simp

lemma eTheta_add (a b : ℝ) : eTheta (a + b) = eTheta a * eTheta b := by
  unfold eTheta
  rw [← Complex.exp_add]
  congr 1
  push_cast
  ring

lemma eTheta_int (n : ℤ) : eTheta n = 1 := by
  unfold eTheta
  have h : 2 * (Real.pi : ℂ) * Complex.I * ((n : ℝ) : ℂ)
      = (n : ℂ) * (2 * Real.pi * Complex.I) := by
    push_cast
    ring
  rw [h, Complex.exp_int_mul_two_pi_mul_I]

lemma eTheta_add_int (a : ℝ) (n : ℤ) : eTheta (a + n) = eTheta a := by
  rw [eTheta_add, eTheta_int, mul_one]

lemma eTheta_nat_mul (m : ℕ) (r : ℝ) : eTheta (m * r) = eTheta r ^ m := by
  unfold eTheta
  rw [← Complex.exp_nat_mul]
  congr 1
  push_cast
  ring

lemma eTheta_sum {ι : Type*} (s : Finset ι) (f : ι → ℝ) :
    eTheta (∑ i in s, f i) = ∏ i in s, eTheta (f i) := by
  unfold eTheta
  have h : 2 * (Real.pi : ℂ) * Complex.I * ((∑ i in s, f i : ℝ) : ℂ)
      = ∑ i in s, 2 * (Real.pi : ℂ) * Complex.I * ((f i : ℝ) : ℂ) := by
    push_cast
    rw [Finset.mul_sum]
  rw [h, Complex.exp_sum]

lemma eTheta_eq_one_iff (r : ℝ) : eTheta r = 1 ↔ ∃ n : ℤ, r = n := by
  unfold eTheta
  rw [Complex.exp_eq_one_iff]
  have h2 : (2 * (Real.pi : ℂ) * Complex.I) ≠ 0 := by
    simp [Real.pi_ne_zero, Complex.I_ne_zero]
  constructor
  · rintro ⟨n, hn⟩
    refine ⟨n, ?_⟩
    have hr : (r : ℂ) * (2 * Real.pi * Complex.I)
        = ((n : ℝ) : ℂ) * (2 * Real.pi * Complex.I) := by
      push_cast at hn ⊢
      linear_combination hn
    have := mul_right_cancel₀ h2 hr
    exact_mod_cast this
  · rintro ⟨n, rfl⟩
    exact ⟨n, by push_cast; ring⟩

lemma sum_eTheta_div (N : ℕ) (hN : 0 < N) (m : ℤ) :
    ∑ z in range N, eTheta ((m : ℝ) * z / N) = if (N : ℤ) ∣ m then (N : ℂ) else 0 := by
  have hNR : ((N : ℝ)) ≠ 0 := Nat.cast_ne_zero.mpr (by omega)
  have hz : ∀ z : ℕ, eTheta ((m : ℝ) * z / N) = eTheta ((m : ℝ) / N) ^ z := by
    intro z
    rw [← eTheta_nat_mul]
    congr 1
    ring
  rw [Finset.sum_congr rfl fun z _ => hz z]
  split
  case isTrue h =>
    obtain ⟨t, rfl⟩ := h
    have hone : eTheta ((((N : ℤ) * t : ℤ) : ℝ) / N) = 1 := by
      have harg : (((N : ℤ) * t : ℤ) : ℝ) / N = ((t : ℤ) : ℝ) := by
        push_cast
        rw [mul_comm, mul_div_assoc, div_self hNR, mul_one]
      rw [harg, eTheta_int]
    rw [Finset.sum_congr rfl fun z _ => by rw [hone, one_pow]]
    simp
  case isFalse h =>
    have hpow : eTheta ((m : ℝ) / N) ^ N = 1 := by
      rw [← eTheta_nat_mul]
      have harg : (N : ℝ) * ((m : ℝ) / N) = ((m : ℤ) : ℝ) := by
        field_simp
      rw [harg, eTheta_int]
    have hne : eTheta ((m : ℝ) / N) ≠ 1 := by
      intro hcon
      rcases (eTheta_eq_one_iff _).mp hcon with ⟨t, ht⟩
      apply h
      rw [div_eq_iff hNR] at ht
      have hmt : m = t * N := by exact_mod_cast ht
      exact ⟨t, by rw [hmt]; ring⟩
    rw [geom_sum_eq hne N, hpow]
    simp

lemma bit_eq_one_iff (n i : ℕ) : bit n i = 1 ↔ n.testBit i := by
  unfold bit
  split <;> simp [*]

/-! ### Diagonal action of the rotation lists -/

lemma applyCPList_eq (ops : List CPOp) (v : ℕ → ℂ) (c : ℕ) :
    applyCPList ops v c = ((ops.map (cpFactor c)).prod) * v c := by
  induction ops generalizing v with
  | nil => simp [applyCPList]
  | cons op ops ih =>
    have hstep : applyCPList (op :: ops) v = applyCPList ops (applyCP op v) := rfl
    rw [hstep, ih (applyCP op v)]
    unfold applyCP
    simp only [List.map_cons, List.prod_cons]
    ring

lemma applyPList_eq (ops : List POp) (v : ℕ → ℂ) (c : ℕ) :
    applyPList ops v c = ((ops.map (pFactor c)).prod) * v c := by
  induction ops generalizing v with
  | nil => simp [applyPList]
  | cons op ops ih =>
    have hstep : applyPList (op :: ops) v = applyPList ops (applyP op v) := rfl
    rw [hstep, ih (applyP op v)]
    unfold applyP
    simp only [List.map_cons, List.prod_cons]
    ring

lemma prod_map_flatMap {α β : Type*} (l : List α) (f : α → List β) (g : β → ℂ) :
    ((l.flatMap f).map g).prod = (l.map fun a => ((f a).map g).prod).prod := by
  induction l with
  | nil => simp
  | cons a l ih => simp [List.flatMap_cons, ih]

lemma list_range_map_prod (n : ℕ) (g : ℕ → ℂ) :
    ((List.range n).map g).prod = ∏ j in range n, g j := by
  induction n with
  | zero => simp
  | succ n ih =>
    rw [List.range_succ, List.map_append, List.prod_append, Finset.prod_range_succ, ih]
    simp

lemma list_filter_map_prod (m : ℕ) (p : ℕ → Bool) (g : ℕ → ℂ) :
    (((List.range m).filter p).map g).prod = ∏ j in range m, (if p j then g j else 1) := by
  induction m with
  | zero => simp
  | succ m ih =>
    rw [List.range_succ, List.filter_append, List.map_append, List.prod_append, ih,
      Finset.prod_range_succ]
    by_cases h : p m <;> simp [h]

lemma cpFactor_mk (c T i j : ℕ) :
    cpFactor c ⟨1 + i - j, T + j, i⟩
      = if bit c i = 1 ∧ bit (c / 2 ^ T) j = 1 then eTheta ((1 : ℝ) / 2 ^ (1 + i - j)) else 1 := by
  unfold cpFactor
  simp only [bit_eq_one_iff]
  rw [← Nat.shiftRight_eq_div_pow, Nat.testBit_shiftRight]
  have hcomm : (Nat.testBit c (T + j) ∧ Nat.testBit c i)
      ↔ (Nat.testBit c i ∧ Nat.testBit c (T + j)) := and_comm
  rw [if_congr hcomm rfl rfl]

lemma pFactor_if (bits : List ℕ) (c i j : ℕ) :
    (if bits.getD j 0 == 1 then pFactor c ⟨1 + i - j, i⟩ else 1)
      = if bit c i = 1 ∧ bits.getD j 0 = 1 then eTheta ((1 : ℝ) / 2 ^ (1 + i - j)) else 1 := by
  unfold pFactor
  by_cases hb : bits.getD j 0 = 1
  · rw [hb]
    by_cases ht : c.testBit i
    · simp [ht, bit_eq_one_iff]
    · simp [ht, bit_eq_one_iff]
  · have h2 : ¬(bit c i = 1 ∧ bits.getD j 0 = 1) := fun h => hb h.2
    have hbeq : (bits.getD j 0 == 1) = false := beq_eq_false_iff_ne.mpr hb
    rw [hbeq, if_neg h2]
    simp

lemma master_prod (T L : ℕ) (β : ℕ → ℕ) (hβ : ∀ j, β j ≤ 1) (c : ℕ) :
    (∏ i in range T, ∏ j in range (min (i + 1) L),
        (if bit c i = 1 ∧ β j = 1 then eTheta ((1 : ℝ) / 2 ^ (1 + i - j)) else 1))
      = eTheta (((bitrev T (c % 2 ^ T) * ∑ j in range L, β j * 2 ^ j : ℕ) : ℝ) / (2 ^ T : ℝ)) := by
  have hfac : ∀ i ∈ range T, ∀ j ∈ range (min (i + 1) L),
      (if bit c i = 1 ∧ β j = 1 then eTheta ((1 : ℝ) / 2 ^ (1 + i - j)) else 1)
        = eTheta (((bit c i * β j : ℕ) : ℝ) * ((2 : ℝ) ^ j / 2 ^ (i + 1))) := by
    intro i _ j hj
    have hji : j ≤ i := by
      have := Finset.mem_range.mp hj
      omega
    have hpow : ((1 : ℝ) / 2 ^ (1 + i - j)) = (2 : ℝ) ^ j / 2 ^ (i + 1) := by
      rw [div_eq_div_iff (by positivity) (by positivity), one_mul, ← pow_add]
      congr 1
      omega
    by_cases h1 : bit c i = 1 ∧ β j = 1
    · rw [if_pos h1, h1.1, h1.2, hpow]
      norm_num
    · rw [if_neg h1]
      have hz : bit c i * β j = 0 := by
        have hbc := bit_le_one c i
        have hbj := hβ j
        have hor : bit c i = 0 ∨ β j = 0 := by
          by_contra hcon
          push_neg at hcon
          exact h1 ⟨by omega, by omega⟩
        rcases hor with h | h <;> simp [h]
      rw [hz]
      simp [eTheta_zero]
  have hstep1 : (∏ i in range T, ∏ j in range (min (i + 1) L),
      (if bit c i = 1 ∧ β j = 1 then eTheta ((1 : ℝ) / 2 ^ (1 + i - j)) else 1))
      = eTheta (∑ i in range T, ∑ j in range (min (i + 1) L),
          ((bit c i * β j : ℕ) : ℝ) * ((2 : ℝ) ^ j / 2 ^ (i + 1))) := by
    rw [eTheta_sum]
    refine Finset.prod_congr rfl fun i hi => ?_
    rw [eTheta_sum]
    exact Finset.prod_congr rfl fun j hj => hfac i hi j hj
  rw [hstep1]
  -- split the full rectangle sum into the triangular part and an integer rest
  have hsplit : ∀ i ∈ range T,
      (∑ j in range L, ((bit c i * β j : ℕ) : ℝ) * ((2 : ℝ) ^ j / 2 ^ (i + 1)))
        = (∑ j in range (min (i + 1) L), ((bit c i * β j : ℕ) : ℝ) * ((2 : ℝ) ^ j / 2 ^ (i + 1)))
          + ∑ j in Finset.Ico (min (i + 1) L) L,
              ((bit c i * β j : ℕ) : ℝ) * ((2 : ℝ) ^ j / 2 ^ (i + 1)) := by
    intro i _
    rw [Finset.range_eq_Ico, ← Finset.sum_Ico_consecutive _ (Nat.zero_le _) (min_le_right (i + 1) L),
      ← Finset.range_eq_Ico]
  have hrest_nat : ∀ i ∈ range T,
      (∑ j in Finset.Ico (min (i + 1) L) L,
          ((bit c i * β j : ℕ) : ℝ) * ((2 : ℝ) ^ j / 2 ^ (i + 1)))
        = ((∑ j in Finset.Ico (min (i + 1) L) L, bit c i * β j * 2 ^ (j - i - 1) : ℕ) : ℝ) := by
    intro i _
    push_cast
    refine Finset.sum_congr rfl fun j hj => ?_
    have hj' := Finset.mem_Ico.mp hj
    have hij : i + 1 ≤ j := by omega
    have hp : (2 : ℝ) ^ j / 2 ^ (i + 1) = (2 : ℝ) ^ (j - i - 1) := by
      rw [div_eq_iff (by positivity), ← pow_add]
      congr 1
      omega
    rw [hp]
  -- value of the full rectangle sum
  have hfull : (∑ i in range T, ∑ j in range L,
      ((bit c i * β j : ℕ) : ℝ) * ((2 : ℝ) ^ j / 2 ^ (i + 1)))
      = ((bitrev T (c % 2 ^ T) * ∑ j in range L, β j * 2 ^ j : ℕ) : ℝ) / (2 ^ T : ℝ) := by
    unfold bitrev
    push_cast
    rw [Finset.sum_mul_sum, Finset.sum_div]
    refine Finset.sum_congr rfl fun i hi => ?_
    rw [Finset.sum_div]
    refine Finset.sum_congr rfl fun j _ => ?_
    have hiT := Finset.mem_range.mp hi
    have hbm : bit (c % 2 ^ T) i = bit c i := bit_mod_two_pow c T i hiT
    have hp : (2 : ℝ) ^ (T - 1 - i) = (2 : ℝ) ^ T / 2 ^ (i + 1) := by
      rw [eq_div_iff (by positivity), ← pow_add]
      congr 1
      omega
    rw [hbm, hp]
    field_simp
    ring
  -- assemble: the full rectangle sum is the triangular part plus an integer
  set A := ∑ i in range T, ∑ j in range (min (i + 1) L),
      ((bit c i * β j : ℕ) : ℝ) * ((2 : ℝ) ^ j / 2 ^ (i + 1)) with hA
  set nR := ∑ i in range T, ∑ j in Finset.Ico (min (i + 1) L) L,
      bit c i * β j * 2 ^ (j - i - 1) with hnR
  have hFA : (∑ i in range T, ∑ j in range L,
      ((bit c i * β j : ℕ) : ℝ) * ((2 : ℝ) ^ j / 2 ^ (i + 1)))
      = A + (nR : ℝ) := by
    rw [hA, hnR, Nat.cast_sum, ← Finset.sum_add_distrib]
    refine Finset.sum_congr rfl fun i hi => ?_
    rw [hsplit i hi]
    congr 1
    exact hrest_nat i hi
  rw [← hfull, hFA]
  have hcast : A + ((nR : ℕ) : ℝ) = A + ((nR : ℤ) : ℝ) := by
    push_cast
    ring
  rw [hcast, eTheta_add_int]

lemma qftPerm_false (n y : ℕ) : qftPerm n false y = bitrev n y := rfl

lemma adderOps_diag (T S : ℕ) (v : ℕ → ℂ) (c : ℕ) :
    applyCPList (AdderPhaseOps T S) v c
      = eTheta (((bitrev T (c % 2 ^ T) * (c / 2 ^ T % 2 ^ S) : ℕ) : ℝ) / (2 ^ T : ℝ)) * v c := by
  rw [applyCPList_eq]
  congr 1
  unfold AdderPhaseOps
  rw [prod_map_flatMap, list_range_map_prod]
  have hinner : ∀ i,
      (((List.range (min (i + 1) S)).map fun j => CPOp.mk (1 + i - j) (T + j) i).map
          (cpFactor c)).prod
        = ∏ j in range (min (i + 1) S),
            (if bit c i = 1 ∧ bit (c / 2 ^ T) j = 1
              then eTheta ((1 : ℝ) / 2 ^ (1 + i - j)) else 1) := by
    intro i
    rw [List.map_map, list_range_map_prod]
    exact Finset.prod_congr rfl fun j _ => cpFactor_mk c T i j
  rw [Finset.prod_congr rfl fun i _ => hinner i,
    master_prod T S (fun j => bit (c / 2 ^ T) j) (fun j => bit_le_one _ _) c,
    sum_bit_mul_pow_mod S (c / 2 ^ T)]

lemma classicalOps_diag (T k : ℕ) (v : ℕ → ℂ) (c : ℕ) :
    applyPList (ClassicalAdderPhaseOps T (pyBinDigits k)) v c
      = eTheta (((bitrev T (c % 2 ^ T) * k : ℕ) : ℝ) / (2 ^ T : ℝ)) * v c := by
  rw [applyPList_eq]
  congr 1
  unfold ClassicalAdderPhaseOps
  rw [prod_map_flatMap, list_range_map_prod]
  have hinner : ∀ i,
      ((((List.range (min (i + 1) (pyBinDigits k).length)).filter
            fun j => (pyBinDigits k).getD j 0 == 1).map fun j => POp.mk (1 + i - j) i).map
          (pFactor c)).prod
        = ∏ j in range (min (i + 1) (pyBinDigits k).length),
            (if bit c i = 1 ∧ (pyBinDigits k).getD j 0 = 1
              then eTheta ((1 : ℝ) / 2 ^ (1 + i - j)) else 1) := by
    intro i
    rw [List.map_map, list_filter_map_prod]
    exact Finset.prod_congr rfl fun j _ => pFactor_if (pyBinDigits k) c i j
  rw [Finset.prod_congr rfl fun i _ => hinner i,
    master_prod T (pyBinDigits k).length (fun j => (pyBinDigits k).getD j 0)
      (pyBinDigits_le_one k) c,
    pyBinDigits_sum k]

/-! ### Unitarity collapse of the QFT sandwich -/

lemma sum_range_invol (N : ℕ) (r : ℕ → ℕ) (h1 : ∀ y, y < N → r y < N)
    (h2 : ∀ y, y < N → r (r y) = y) (F : ℕ → ℂ) :
    ∑ y in range N, F (r y) = ∑ z in range N, F z := by
  refine Finset.sum_nbij' r r ?_ ?_ ?_ ?_ ?_
  · intro a ha
    exact Finset.mem_range.mpr (h1 a (Finset.mem_range.mp ha))
  · intro a ha
    exact Finset.mem_range.mpr (h1 a (Finset.mem_range.mp ha))
  · intro a ha
    exact h2 a (Finset.mem_range.mp ha)
  · intro a ha
    exact h2 a (Finset.mem_range.mp ha)
  · intro a _
    rfl

lemma qft_collapse (n : ℕ) (ds : Bool) (K b' x : ℕ) (hb' : b' < 2 ^ n) (hx : x < 2 ^ n) :
    (∑ y in range (2 ^ n), QFTGateInvMat n ds b' y
        * (eTheta (((qftPerm n ds y * K : ℕ) : ℝ) / (2 ^ n : ℝ)) * QFTGateMat n ds y x))
      = if (x + K) % 2 ^ n = b' then 1 else 0 := by
  have hNpos : 0 < 2 ^ n := Nat.pos_pow_of_pos n (by omega)
  set m : ℤ := (x : ℤ) + K - b' with hm
  have hc : ((invSqrtN n : ℝ) : ℂ) * ((invSqrtN n : ℝ) : ℂ)
      = ((((2 : ℝ) ^ n)⁻¹ : ℝ) : ℂ) := by
    rw [← Complex.ofReal_mul]
    congr 1
    unfold invSqrtN
    rw [← mul_inv, Real.mul_self_sqrt (by positivity)]
  have hterm : ∀ y ∈ range (2 ^ n),
      QFTGateInvMat n ds b' y
          * (eTheta (((qftPerm n ds y * K : ℕ) : ℝ) / (2 ^ n : ℝ)) * QFTGateMat n ds y x)
        = ((((2 : ℝ) ^ n)⁻¹ : ℝ) : ℂ)
            * eTheta ((m : ℝ) * ((qftPerm n ds y : ℕ) : ℝ) / (2 ^ n : ℝ)) := by
    intro y _
    unfold QFTGateMat QFTGateInvMat
    set p := qftPerm n ds y with hp
    have hE : eTheta (-(((b' * p : ℕ) : ℝ) / (2 ^ n : ℝ)))
        * (eTheta (((p * K : ℕ) : ℝ) / (2 ^ n : ℝ)) * eTheta (((x * p : ℕ) : ℝ) / (2 ^ n : ℝ)))
        = eTheta ((m : ℝ) * ((p : ℕ) : ℝ) / (2 ^ n : ℝ)) := by
      rw [← eTheta_add, ← eTheta_add]
      congr 1
      rw [hm]
      push_cast
      ring
    calc ((invSqrtN n : ℝ) : ℂ) * eTheta (-(((b' * p : ℕ) : ℝ) / (2 ^ n : ℝ)))
          * (eTheta (((p * K : ℕ) : ℝ) / (2 ^ n : ℝ))
            * (((invSqrtN n : ℝ) : ℂ) * eTheta (((x * p : ℕ) : ℝ) / (2 ^ n : ℝ))))
        = ((invSqrtN n : ℝ) : ℂ) * ((invSqrtN n : ℝ) : ℂ)
            * (eTheta (-(((b' * p : ℕ) : ℝ) / (2 ^ n : ℝ)))
              * (eTheta (((p * K : ℕ) : ℝ) / (2 ^ n : ℝ))
                * eTheta (((x * p : ℕ) : ℝ) / (2 ^ n : ℝ)))) := by ring
      _ = ((((2 : ℝ) ^ n)⁻¹ : ℝ) : ℂ)
            * eTheta ((m : ℝ) * ((p : ℕ) : ℝ) / (2 ^ n : ℝ)) := by rw [hc, hE]
  rw [Finset.sum_congr rfl hterm, ← Finset.mul_sum]
  have hsubst : (∑ y in range (2 ^ n),
      eTheta ((m : ℝ) * ((qftPerm n ds y : ℕ) : ℝ) / (2 ^ n : ℝ)))
      = ∑ z in range (2 ^ n), eTheta ((m : ℝ) * ((z : ℕ) : ℝ) / (2 ^ n : ℝ)) :=
    sum_range_invol (2 ^ n) (qftPerm n ds) (fun y hy => qftPerm_lt n ds y hy)
      (fun y hy => qftPerm_invol n ds y hy)
      (fun z => eTheta ((m : ℝ) * ((z : ℕ) : ℝ) / (2 ^ n : ℝ)))
  rw [hsubst]
  have hsum : (∑ z in range (2 ^ n), eTheta ((m : ℝ) * ((z : ℕ) : ℝ) / (2 ^ n : ℝ)))
      = if ((2 ^ n : ℕ) : ℤ) ∣ m then ((2 ^ n : ℕ) : ℂ) else 0 := by
    rw [← sum_eTheta_div (2 ^ n) hNpos m]
    refine Finset.sum_congr rfl fun z _ => ?_
    congr 1
    push_cast
    ring
  rw [hsum]
  have hdvd : ((2 ^ n : ℕ) : ℤ) ∣ m ↔ (x + K) % 2 ^ n = b' := by
    rw [hm]
    have harg : ((x : ℤ) + K - b') = ((x + K : ℕ) : ℤ) - (b' : ℤ) := by
      push_cast
      ring
    rw [harg, ← Nat.modEq_iff_dvd]
    unfold Nat.ModEq
    rw [Nat.mod_eq_of_lt hb']
    exact comm
  by_cases hd : ((2 ^ n : ℕ) : ℤ) ∣ m
  · rw [if_pos hd, if_pos (hdvd.mp hd)]
    push_cast
    field_simp
  · rw [if_neg hd, if_neg fun hcon => hd (hdvd.mpr hcon)]
    simp

/-! ### Global action of the composed gates -/

lemma two_pow_pos (n : ℕ) : 0 < 2 ^ n := Nat.pos_pow_of_pos n (by omega)

lemma add_mul_mod (a q N : ℕ) (ha : a < N) : (a + N * q) % N = a := by
  rw [Nat.add_mul_mod_self_left, Nat.mod_eq_of_lt ha]

lemma add_mul_div (a q N : ℕ) (hN : 0 < N) (ha : a < N) : (a + N * q) / N = q := by
  rw [Nat.add_mul_div_left _ _ hN, Nat.div_eq_of_lt ha, zero_add]

/-- Master formula for the QFT adder: on an arbitrary state, the gate acts
block-diagonally, adding the summand block value (mod `2^T`) into the target
block. -/
lemma adderGate_apply (T S : ℕ) (v : ℕ → ℂ) (b : ℕ) :
    AdderGateApply T S v b
      = ∑ x in range (2 ^ T),
          (if (x + b / 2 ^ T % 2 ^ S) % 2 ^ T = b % 2 ^ T then 1 else 0)
            * v (x + 2 ^ T * (b / 2 ^ T)) := by
  have hNpos : 0 < 2 ^ T := two_pow_pos T
  have hyval : ∀ y ∈ range (2 ^ T),
      applyCPList (AdderPhaseOps T S) (applyMat T (QFTGateMat T false) v)
          (y + 2 ^ T * (b / 2 ^ T))
        = eTheta (((bitrev T y * (b / 2 ^ T % 2 ^ S) : ℕ) : ℝ) / (2 ^ T : ℝ))
          * ∑ x in range (2 ^ T), QFTGateMat T false y x * v (x + 2 ^ T * (b / 2 ^ T)) := by
    intro y hy
    have hyN := Finset.mem_range.mp hy
    rw [adderOps_diag, add_mul_mod y (b / 2 ^ T) (2 ^ T) hyN,
      add_mul_div y (b / 2 ^ T) (2 ^ T) hNpos hyN]
    simp only [applyMat]
    rw [add_mul_mod y (b / 2 ^ T) (2 ^ T) hyN,
      add_mul_div y (b / 2 ^ T) (2 ^ T) hNpos hyN]
  have hstep : AdderGateApply T S v b
      = ∑ y in range (2 ^ T), QFTGateInvMat T false (b % 2 ^ T) y
          * (eTheta (((bitrev T y * (b / 2 ^ T % 2 ^ S) : ℕ) : ℝ) / (2 ^ T : ℝ))
            * ∑ x in range (2 ^ T), QFTGateMat T false y x * v (x + 2 ^ T * (b / 2 ^ T))) := by
    unfold AdderGateApply
    conv_lhs => rw [applyMat]
    exact Finset.sum_congr rfl fun y hy => by rw [hyval y hy]
  rw [hstep]
  have hdist : ∀ y ∈ range (2 ^ T),
      QFTGateInvMat T false (b % 2 ^ T) y
          * (eTheta (((bitrev T y * (b / 2 ^ T % 2 ^ S) : ℕ) : ℝ) / (2 ^ T : ℝ))
            * ∑ x in range (2 ^ T), QFTGateMat T false y x * v (x + 2 ^ T * (b / 2 ^ T)))
        = ∑ x in range (2 ^ T),
            QFTGateInvMat T false (b % 2 ^ T) y
              * (eTheta (((bitrev T y * (b / 2 ^ T % 2 ^ S) : ℕ) : ℝ) / (2 ^ T : ℝ))
                * QFTGateMat T false y x) * v (x + 2 ^ T * (b / 2 ^ T)) := by
    intro y _
    rw [Finset.mul_sum, Finset.mul_sum]
    exact Finset.sum_congr rfl fun x _ => by ring
  rw [Finset.sum_congr rfl hdist, Finset.sum_comm]
  refine Finset.sum_congr rfl fun x hx' => ?_
  rw [← Finset.sum_mul]
  congr 1
  have hb' : b % 2 ^ T < 2 ^ T := Nat.mod_lt _ hNpos
  have hxlt : x < 2 ^ T := mem_range.mp hx'
  have hcoll := qft_collapse T false (b / 2 ^ T % 2 ^ S) (b % 2 ^ T) x hb' hxlt
  simp only [qftPerm_false] at hcoll
  exact hcoll

/-- Master formula for the classical QFT adder: on an arbitrary state, the gate
adds the constant `k` (mod `2^T`) into the target block, leaving higher wires
untouched. -/
lemma classicalAdder_apply (T k : ℕ) (v : ℕ → ℂ) (b : ℕ) :
    ClassicalAdderApply T k v b
      = ∑ x in range (2 ^ T),
          (if (x + k) % 2 ^ T = b % 2 ^ T then 1 else 0) * v (x + 2 ^ T * (b / 2 ^ T)) := by
  have hNpos : 0 < 2 ^ T := two_pow_pos T
  have hyval : ∀ y ∈ range (2 ^ T),
      applyPList (ClassicalAdderPhaseOps T (pyBinDigits k)) (applyMat T (QFTGateMat T false) v)
          (y + 2 ^ T * (b / 2 ^ T))
        = eTheta (((bitrev T y * k : ℕ) : ℝ) / (2 ^ T : ℝ))
          * ∑ x in range (2 ^ T), QFTGateMat T false y x * v (x + 2 ^ T * (b / 2 ^ T)) := by
    intro y hy
    have hyN := Finset.mem_range.mp hy
    rw [classicalOps_diag, add_mul_mod y (b / 2 ^ T) (2 ^ T) hyN]
    simp only [applyMat]
    rw [add_mul_mod y (b / 2 ^ T) (2 ^ T) hyN,
      add_mul_div y (b / 2 ^ T) (2 ^ T) hNpos hyN]
  have hstep : ClassicalAdderApply T k v b
      = ∑ y in range (2 ^ T), QFTGateInvMat T false (b % 2 ^ T) y
          * (eTheta (((bitrev T y * k : ℕ) : ℝ) / (2 ^ T : ℝ))
            * ∑ x in range (2 ^ T), QFTGateMat T false y x * v (x + 2 ^ T * (b / 2 ^ T))) := by
    unfold ClassicalAdderApply
    conv_lhs => rw [applyMat]
    exact Finset.sum_congr rfl fun y hy => by rw [hyval y hy]
  rw [hstep]
  have hdist : ∀ y ∈ range (2 ^ T),
      QFTGateInvMat T false (b % 2 ^ T) y
          * (eTheta (((bitrev T y * k : ℕ) : ℝ) / (2 ^ T : ℝ))
            * ∑ x in range (2 ^ T), QFTGateMat T false y x * v (x + 2 ^ T * (b / 2 ^ T)))
        = ∑ x in range (2 ^ T),
            QFTGateInvMat T false (b % 2 ^ T) y
              * (eTheta (((bitrev T y * k : ℕ) : ℝ) / (2 ^ T : ℝ))
                * QFTGateMat T false y x) * v (x + 2 ^ T * (b / 2 ^ T)) := by
    intro y _
    rw [Finset.mul_sum, Finset.mul_sum]
    exact Finset.sum_congr rfl fun x _ => by ring
  rw [Finset.sum_congr rfl hdist, Finset.sum_comm]
  refine Finset.sum_congr rfl fun x hx' => ?_
  rw [← Finset.sum_mul]
  congr 1
  have hb' : b % 2 ^ T < 2 ^ T := Nat.mod_lt _ hNpos
  have hxlt : x < 2 ^ T := mem_range.mp hx'
  have hcoll := qft_collapse T false k (b % 2 ^ T) x hb' hxlt
  simp only [qftPerm_false] at hcoll
  exact hcoll

/-- The declared inverse QFT undoes the forward QFT on every state, for either
`do_swaps` convention. -/
lemma qft_roundtrip (n : ℕ) (ds : Bool) (v : ℕ → ℂ) (b : ℕ) :
    applyMat n (QFTGateInvMat n ds) (applyMat n (QFTGateMat n ds) v) b = v b := by
  have hNpos : 0 < 2 ^ n := two_pow_pos n
  have hyval : ∀ y ∈ range (2 ^ n),
      applyMat n (QFTGateMat n ds) v (y + 2 ^ n * (b / 2 ^ n))
        = ∑ x in range (2 ^ n), QFTGateMat n ds y x * v (x + 2 ^ n * (b / 2 ^ n)) := by
    intro y hy
    have hyN := Finset.mem_range.mp hy
    simp only [applyMat]
    rw [add_mul_mod y (b / 2 ^ n) (2 ^ n) hyN,
      add_mul_div y (b / 2 ^ n) (2 ^ n) hNpos hyN]
  have hstep : applyMat n (QFTGateInvMat n ds) (applyMat n (QFTGateMat n ds) v) b
      = ∑ y in range (2 ^ n), QFTGateInvMat n ds (b % 2 ^ n) y
          * ∑ x in range (2 ^ n), QFTGateMat n ds y x * v (x + 2 ^ n * (b / 2 ^ n)) := by
    conv_lhs => rw [applyMat]
    exact Finset.sum_congr rfl fun y hy => by rw [hyval y hy]
  rw [hstep]
  have hE0 : ∀ y : ℕ, eTheta (((qftPerm n ds y * 0 : ℕ) : ℝ) / (2 ^ n : ℝ)) = 1 := by
    intro y
    norm_num [eTheta_zero]
  have hdist : ∀ y ∈ range (2 ^ n),
      QFTGateInvMat n ds (b % 2 ^ n) y
          * ∑ x in range (2 ^ n), QFTGateMat n ds y x * v (x + 2 ^ n * (b / 2 ^ n))
        = ∑ x in range (2 ^ n),
            QFTGateInvMat n ds (b % 2 ^ n) y
              * (eTheta (((qftPerm n ds y * 0 : ℕ) : ℝ) / (2 ^ n : ℝ)) * QFTGateMat n ds y x)
              * v (x + 2 ^ n * (b / 2 ^ n)) := by
    intro y _
    rw [Finset.mul_sum]
    refine Finset.sum_congr rfl fun x _ => ?_
    rw [hE0 y]
    ring
  rw [Finset.sum_congr rfl hdist, Finset.sum_comm]
  have hinner : ∀ x ∈ range (2 ^ n),
      (∑ y in range (2 ^ n),
          QFTGateInvMat n ds (b % 2 ^ n) y
            * (eTheta (((qftPerm n ds y * 0 : ℕ) : ℝ) / (2 ^ n : ℝ)) * QFTGateMat n ds y x)
            * v (x + 2 ^ n * (b / 2 ^ n)))
        = (if x = b % 2 ^ n then (1 : ℂ) else 0) * v (x + 2 ^ n * (b / 2 ^ n)) := by
    intro x hx'
    rw [← Finset.sum_mul]
    congr 1
    have hb' : b % 2 ^ n < 2 ^ n := Nat.mod_lt _ hNpos
    have hxlt : x < 2 ^ n := mem_range.mp hx'
    have hcoll := qft_collapse n ds 0 (b % 2 ^ n) x hb' hxlt
    rw [hcoll]
    have hcond : (x + 0) % 2 ^ n = b % 2 ^ n ↔ x = b % 2 ^ n := by
      rw [Nat.add_zero, Nat.mod_eq_of_lt hxlt]
    exact if_congr hcond rfl rfl
  rw [Finset.sum_congr rfl hinner]
  have hsum : (∑ x in range (2 ^ n),
      (if x = b % 2 ^ n then (1 : ℂ) else 0) * v (x + 2 ^ n * (b / 2 ^ n)))
      = ∑ x in range (2 ^ n),
          (if x = b % 2 ^ n then v (x + 2 ^ n * (b / 2 ^ n)) else 0) := by
    refine Finset.sum_congr rfl fun x _ => ?_
    split <;> simp
  rw [hsum, Finset.sum_ite_eq' (range (2 ^ n)) (b % 2 ^ n),
    if_pos (mem_range.mpr (Nat.mod_lt _ hNpos)), Nat.mod_add_div b (2 ^ n)]

/-- Collapsing the indicator sum against a basis input state. -/
lemma sum_indicator_basis (N K b b0 : ℕ) (hN : 0 < N) :
    (∑ x in range N, (if (x + K) % N = b % N then (1 : ℂ) else 0)
        * basisState b0 (x + N * (b / N)))
      = basisState ((b0 % N + K) % N + N * (b0 / N)) b := by
  by_cases hq : b / N = b0 / N
  · have hre : ∀ x ∈ range N,
        (if (x + K) % N = b % N then (1 : ℂ) else 0) * basisState b0 (x + N * (b / N))
          = if x = b0 % N then (if (x + K) % N = b % N then (1 : ℂ) else 0) else 0 := by
      intro x hx
      have hxlt := mem_range.mp hx
      unfold basisState
      by_cases hxe : x = b0 % N
      · subst hxe
        have hfire : b0 % N + N * (b / N) = b0 := by
          rw [hq, Nat.mod_add_div]
        rw [if_pos hfire, mul_one, if_pos rfl]
      · have hne : x + N * (b / N) ≠ b0 := by
          intro hcon
          apply hxe
          have hmod := congrArg (· % N) hcon
          simp only at hmod
          rw [add_mul_mod x (b / N) N hxlt] at hmod
          exact hmod
        rw [if_neg hne, mul_zero, if_neg hxe]
    rw [Finset.sum_congr rfl hre, Finset.sum_ite_eq' (range N) (b0 % N),
      if_pos (mem_range.mpr (Nat.mod_lt _ hN))]
    unfold basisState
    have hiff : ((b0 % N + K) % N = b % N) ↔ (b = (b0 % N + K) % N + N * (b0 / N)) := by
      constructor
      · intro h
        rw [h, ← hq, Nat.mod_add_div]
      · intro h
        have hmod := congrArg (· % N) h
        simp only at hmod
        rw [add_mul_mod _ (b0 / N) N (Nat.mod_lt _ hN)] at hmod
        exact hmod.symm
    exact if_congr hiff rfl rfl
  · have hzero : ∀ x ∈ range N,
        (if (x + K) % N = b % N then (1 : ℂ) else 0) * basisState b0 (x + N * (b / N)) = 0 := by
      intro x hx
      have hxlt := mem_range.mp hx
      have hne : x + N * (b / N) ≠ b0 := by
        intro hcon
        apply hq
        rw [← hcon, add_mul_div x (b / N) N hN hxlt]
      unfold basisState
      rw [if_neg hne, mul_zero]
    rw [Finset.sum_congr rfl hzero, Finset.sum_const_zero]
    unfold basisState
    rw [if_neg]
    intro hcon
    apply hq
    rw [hcon, add_mul_div _ (b0 / N) N hN (Nat.mod_lt _ hN)]

/-- Basis-state action of the classical adder. -/
lemma classicalAdder_basis (T k b0 : ℕ) :
    ClassicalAdderApply T k (basisState b0)
      = basisState ((b0 % 2 ^ T + k) % 2 ^ T + 2 ^ T * (b0 / 2 ^ T)) := by
  funext b
  rw [classicalAdder_apply, sum_indicator_basis (2 ^ T) k b b0 (two_pow_pos T)]

/-- Basis-state action of the QFT adder. -/
lemma adderGate_basis (T S x s : ℕ) (hx : x < 2 ^ T) (hs : s < 2 ^ S) :
    AdderGateApply T S (basisState (x + 2 ^ T * s))
      = basisState ((x + s) % 2 ^ T + 2 ^ T * s) := by
  have hNpos : 0 < 2 ^ T := two_pow_pos T
  funext b
  rw [adderGate_apply,
    sum_indicator_basis (2 ^ T) (b / 2 ^ T % 2 ^ S) b (x + 2 ^ T * s) hNpos,
    add_mul_mod x s (2 ^ T) hx, add_mul_div x s (2 ^ T) hNpos hx]
  unfold basisState
  by_cases hq : b / 2 ^ T = s
  · rw [hq, Nat.mod_eq_of_lt hs]
  · have h1 : b ≠ (x + b / 2 ^ T % 2 ^ S) % 2 ^ T + 2 ^ T * s := by
      intro hcon
      apply hq
      rw [hcon, add_mul_div _ s (2 ^ T) hNpos (Nat.mod_lt _ hNpos)]
    have h2 : b ≠ (x + s) % 2 ^ T + 2 ^ T * s := by
      intro hcon
      apply hq
      rw [hcon, add_mul_div _ s (2 ^ T) hNpos (Nat.mod_lt _ hNpos)]
    rw [if_neg h1, if_neg h2]

/-- C5: the gate built by `AdderPhaseGate(T, S)` consists exactly of, for each
target index `i < T` and each summand index `j < min (i+1) S`, one controlled
phase rotation of angle `2*pi / 2^(1+i-j)` controlled by `summand[j]` (wire
`T + j`) and targeting `target[i]` (wire `i`), and contains no rotation with
`j > i`. -/
theorem C5_adderPhaseGate_content (T S i j : ℕ) :
    (CPOp.mk (1 + i - j) (T + j) i ∈ AdderPhaseOps T S ↔ i < T ∧ j < min (i + 1) S)
    ∧ (AdderPhaseOps T S).Nodup
    ∧ (∀ op ∈ AdderPhaseOps T S, ∃ i' j', i' < T ∧ j' < min (i' + 1) S ∧ j' ≤ i'
        ∧ op = CPOp.mk (1 + i' - j') (T + j') i') := by
  refine ⟨⟨?_, ?_⟩, nodup_adderPhaseOps T S, ?_⟩
  · intro h
    rcases mem_adderPhaseOps.mp h with ⟨i', j', hi', hj', heq⟩
    have h1 := congrArg CPOp.control heq
    have h2 := congrArg CPOp.target heq
    simp only at h1 h2
    omega
  · intro ⟨hi, hj⟩
    exact mem_adderPhaseOps.mpr ⟨i, j, hi, hj, rfl⟩
  · intro op hop
    rcases mem_adderPhaseOps.mp hop with ⟨i', j', hi', hj', heq⟩
    exact ⟨i', j', hi', hj', by omega, heq⟩

/-- C6: the gate built by `ClassicalAdderPhaseGate(T, k)` for `k >= 0` consists
exactly of, for each target index `i < T` and each index `j < min (i+1) (len bits)`
of the LSB-first binary expansion `bits` of `k` with `bits[j] = 1`, one
unconditional phase rotation of angle `2*pi / 2^(1+i-j)` on `target[i]`; the
digit list is the genuine binary expansion of `k` (digit `j` is `k / 2^j % 2`). -/
theorem C6_classicalAdderPhaseGate_content (T k i j : ℕ) :
    ((pyBinDigits k).getD j 0 = k / 2 ^ j % 2)
    ∧ (POp.mk (1 + i - j) i ∈ ClassicalAdderPhaseOps T (pyBinDigits k) ↔
        i < T ∧ j < min (i + 1) (pyBinDigits k).length ∧ (pyBinDigits k).getD j 0 = 1)
    ∧ (ClassicalAdderPhaseOps T (pyBinDigits k)).Nodup
    ∧ (∀ op ∈ ClassicalAdderPhaseOps T (pyBinDigits k), ∃ i' j', i' < T
        ∧ j' < min (i' + 1) (pyBinDigits k).length ∧ j' ≤ i'
        ∧ (pyBinDigits k).getD j' 0 = 1 ∧ op = POp.mk (1 + i' - j') i') := by
  refine ⟨pyBinDigits_getD k j, ⟨?_, ?_⟩, nodup_classicalAdderPhaseOps T _, ?_⟩
  · intro h
    rcases mem_classicalAdderPhaseOps.mp h with ⟨i', j', hi', hj', hb', heq⟩
    have h1 := congrArg POp.angleDenExp heq
    have h2 := congrArg POp.target heq
    simp only at h1 h2
    have hj'' : j' = j := by omega
    subst hj''
    exact ⟨by omega, by omega, hb'⟩
  · intro ⟨hi, hj, hb⟩
    exact mem_classicalAdderPhaseOps.mpr ⟨i, j, hi, hj, hb, rfl⟩
  · intro op hop
    rcases mem_classicalAdderPhaseOps.mp hop with ⟨i', j', hi', hj', hb', heq⟩
    exact ⟨i', j', hi', hj', by omega, hb', heq⟩

/-- C7 counterexample: with `target_reg_length = 0` (which is `<= 0`) both
phase-adder builders succeed and return a gate (with no rotations) instead of
failing: qiskit's `QuantumRegister` accepts size `0`. -/
theorem C7_counterexample_zero_length_builds :
    AdderPhaseGate 0 1 = Except.ok [] ∧ ClassicalAdderPhaseGate 0 1 = Except.ok [] := by
  constructor <;> rfl

/-- C7 amended: building a Phase-Adder or Classical Phase-Adder with a strictly
negative `target_reg_length` fails with a `CircuitError` (the spec's
`InvalidArgument` kind) raised by register construction, before any gate object
is constructed; for the classical builder this holds whenever `k >= 0` (a
negative `k` fails earlier with `ValueError`).  At `target_reg_length = 0` the
builders succeed and return an empty gate. -/
theorem C7_negative_length_rejected (T S k : ℤ) (hT : T < 0) :
    AdderPhaseGate T S = Except.error BuildError.circuitError
    ∧ (0 ≤ k → ClassicalAdderPhaseGate T k = Except.error BuildError.circuitError) := by
  constructor
  · simp [AdderPhaseGate, pyQuantumRegister, hT, Bind.bind, Except.bind]
  · intro hk
    simp [ClassicalAdderPhaseGate, pyBits, pyQuantumRegister, hT, not_lt.mpr hk,
      Bind.bind, Except.bind]

theorem C7_negative_length_rejected_witness :
    (-1 : ℤ) < 0
    ∧ AdderPhaseGate (-1) 1 = Except.error BuildError.circuitError
    ∧ ClassicalAdderPhaseGate (-1) 0 = Except.error BuildError.circuitError := by
  refine ⟨by decide, (C7_negative_length_rejected (-1) 1 0 (by decide)).1, ?_⟩
  exact (C7_negative_length_rejected (-1) 1 0 (by decide)).2 (by decide)

/-- C8: building `ClassicalAdderPhaseGate(T, k)` with negative `k` fails before
constructing a gate: the slice `bin(k)[-1:1:-1]` keeps the character b, so the
`int` conversion raises `ValueError` (the spec's `InvalidArgument` kind). -/
theorem C8_negative_k_rejected (T k : ℤ) (hT : 0 < T) (hk : k < 0) :
    ClassicalAdderPhaseGate T k = Except.error BuildError.valueError := by
  simp [ClassicalAdderPhaseGate, pyBits, hk, Bind.bind, Except.bind]

theorem C8_negative_k_rejected_witness :
    (0 : ℤ) < 1 ∧ (-1 : ℤ) < 0
    ∧ ClassicalAdderPhaseGate 1 (-1) = Except.error BuildError.valueError :=
  ⟨by decide, by decide, C8_negative_k_rejected 1 (-1) (by decide) (by decide)⟩

/-- C1: applying the gate built by `AdderGate(T, S)` to computational basis
states `|x>` (target) and `|s>` (summand) and measuring yields target
`(x + s) mod 2^T` and summand `s` with probability 1. -/
theorem C1_adderGate_add (T S x s : ℕ) (hT : 0 < T) (hS : 0 < S)
    (hx : x < 2 ^ T) (hs : s < 2 ^ S) :
    AdderGateApply T S (basisState (x + 2 ^ T * s)) = basisState ((x + s) % 2 ^ T + 2 ^ T * s)
    ∧ measureProb (AdderGateApply T S (basisState (x + 2 ^ T * s)))
        ((x + s) % 2 ^ T + 2 ^ T * s) = 1 := by
  have h := adderGate_basis T S x s hx hs
  refine ⟨h, ?_⟩
  rw [h]
  unfold measureProb basisState
  simp

theorem C1_adderGate_add_witness :
    0 < 2 ∧ 0 < 1 ∧ 3 < 2 ^ 2 ∧ 1 < 2 ^ 1
    ∧ (AdderGateApply 2 1 (basisState (3 + 2 ^ 2 * 1)) = basisState ((3 + 1) % 2 ^ 2 + 2 ^ 2 * 1)
      ∧ measureProb (AdderGateApply 2 1 (basisState (3 + 2 ^ 2 * 1)))
          ((3 + 1) % 2 ^ 2 + 2 ^ 2 * 1) = 1) :=
  ⟨by decide, by decide, by decide, by decide,
    C1_adderGate_add 2 1 3 1 (by decide) (by decide) (by decide) (by decide)⟩

/-- C2: applying the gate built by `ClassicalAdderGate(T, k)` to a basis state
`|x>` and measuring yields `(x + k) mod 2^T` with probability 1. -/
theorem C2_classicalAdder_add (T k x : ℕ) (hT : 0 < T) (hk : k < 2 ^ T) (hx : x < 2 ^ T) :
    ClassicalAdderApply T k (basisState x) = basisState ((x + k) % 2 ^ T)
    ∧ measureProb (ClassicalAdderApply T k (basisState x)) ((x + k) % 2 ^ T) = 1 := by
  have h := classicalAdder_basis T k x
  rw [Nat.mod_eq_of_lt hx, Nat.div_eq_of_lt hx, Nat.mul_zero, Nat.add_zero] at h
  refine ⟨h, ?_⟩
  rw [h]
  unfold measureProb basisState
  simp

theorem C2_classicalAdder_add_witness :
    0 < 2 ∧ 3 < 2 ^ 2 ∧ 2 < 2 ^ 2
    ∧ (ClassicalAdderApply 2 3 (basisState 2) = basisState ((2 + 3) % 2 ^ 2)
      ∧ measureProb (ClassicalAdderApply 2 3 (basisState 2)) ((2 + 3) % 2 ^ 2) = 1) :=
  ⟨by decide, by decide, by decide,
    C2_classicalAdder_add 2 3 2 (by decide) (by decide) (by decide)⟩

/-- C3: applying `ClassicalAdderGate(T, k1)` then `ClassicalAdderGate(T, k2)`
acts identically (same state, hence same output distribution) to the single
gate `ClassicalAdderGate(T, (k1 + k2) mod 2^T)`, on every input state. -/
theorem C3_classicalAdder_compose (T k1 k2 : ℕ) (hT : 0 < T) (v : ℕ → ℂ) (b : ℕ) :
    ClassicalAdderApply T k2 (ClassicalAdderApply T k1 v) b
        = ClassicalAdderApply T ((k1 + k2) % 2 ^ T) v b
    ∧ measureProb (ClassicalAdderApply T k2 (ClassicalAdderApply T k1 v)) b
        = measureProb (ClassicalAdderApply T ((k1 + k2) % 2 ^ T) v) b := by
  have hNpos : 0 < 2 ^ T := two_pow_pos T
  have hmain : ClassicalAdderApply T k2 (ClassicalAdderApply T k1 v) b
      = ClassicalAdderApply T ((k1 + k2) % 2 ^ T) v b := by
    rw [classicalAdder_apply T k2, classicalAdder_apply T ((k1 + k2) % 2 ^ T)]
    have hinner : ∀ x2 ∈ range (2 ^ T),
        ClassicalAdderApply T k1 v (x2 + 2 ^ T * (b / 2 ^ T))
          = ∑ x1 in range (2 ^ T),
              (if (x1 + k1) % 2 ^ T = x2 then 1 else 0) * v (x1 + 2 ^ T * (b / 2 ^ T)) := by
      intro x2 hx2
      have hx2' := mem_range.mp hx2
      rw [classicalAdder_apply, add_mul_mod x2 _ _ hx2', add_mul_div x2 _ _ hNpos hx2']
    rw [Finset.sum_congr rfl fun x2 hx2 => by rw [hinner x2 hx2]]
    have hdist : ∀ x2 ∈ range (2 ^ T),
        (if (x2 + k2) % 2 ^ T = b % 2 ^ T then (1 : ℂ) else 0)
            * ∑ x1 in range (2 ^ T),
                (if (x1 + k1) % 2 ^ T = x2 then 1 else 0) * v (x1 + 2 ^ T * (b / 2 ^ T))
          = ∑ x1 in range (2 ^ T),
              ((if (x2 + k2) % 2 ^ T = b % 2 ^ T then (1 : ℂ) else 0)
                * (if (x1 + k1) % 2 ^ T = x2 then 1 else 0)) * v (x1 + 2 ^ T * (b / 2 ^ T)) := by
      intro x2 _
      rw [Finset.mul_sum]
      exact Finset.sum_congr rfl fun x1 _ => by ring
    rw [Finset.sum_congr rfl hdist, Finset.sum_comm]
    refine Finset.sum_congr rfl fun x1 _ => ?_
    rw [← Finset.sum_mul]
    congr 1
    have hre : ∀ x2 ∈ range (2 ^ T),
        ((if (x2 + k2) % 2 ^ T = b % 2 ^ T then (1 : ℂ) else 0)
          * (if (x1 + k1) % 2 ^ T = x2 then 1 else 0))
          = if x2 = (x1 + k1) % 2 ^ T
              then (if (x2 + k2) % 2 ^ T = b % 2 ^ T then (1 : ℂ) else 0) else 0 := by
      intro x2 _
      by_cases hc : (x1 + k1) % 2 ^ T = x2
      · rw [if_pos hc, mul_one, if_pos hc.symm]
      · rw [if_neg hc, mul_zero, if_neg fun hcon => hc hcon.symm]
    rw [Finset.sum_congr rfl hre, Finset.sum_ite_eq' (range (2 ^ T)) ((x1 + k1) % 2 ^ T),
      if_pos (mem_range.mpr (Nat.mod_lt _ hNpos))]
    have hcond : ((x1 + k1) % 2 ^ T + k2) % 2 ^ T = (x1 + (k1 + k2) % 2 ^ T) % 2 ^ T := by
      rw [Nat.mod_add_mod, Nat.add_mod_mod, Nat.add_assoc]
    rw [hcond]
  refine ⟨hmain, ?_⟩
  unfold measureProb
  rw [hmain]

theorem C3_classicalAdder_compose_witness :
    0 < 1
    ∧ (ClassicalAdderApply 1 2 (ClassicalAdderApply 1 1 (basisState 0)) 0
        = ClassicalAdderApply 1 ((1 + 2) % 2 ^ 1) (basisState 0) 0
      ∧ measureProb (ClassicalAdderApply 1 2 (ClassicalAdderApply 1 1 (basisState 0))) 0
        = measureProb (ClassicalAdderApply 1 ((1 + 2) % 2 ^ 1) (basisState 0)) 0) :=
  ⟨by decide, C3_classicalAdder_compose 1 1 2 (by decide) (basisState 0) 0⟩

/-- C9: the gate built by `QFTGate` followed by its declared inverse (same
parameters, either `do_swaps` convention) reproduces every computational basis
state exactly. -/
theorem C9_qft_roundtrip (n : ℕ) (hn : 0 < n) (ds : Bool) (b : ℕ) (hb : b < 2 ^ n) :
    applyMat n (QFTGateInvMat n ds) (applyMat n (QFTGateMat n ds) (basisState b))
      = basisState b := by
  funext c
  exact qft_roundtrip n ds (basisState b) c

theorem C9_qft_roundtrip_witness :
    0 < 1 ∧ 1 < 2 ^ 1
    ∧ applyMat 1 (QFTGateInvMat 1 false) (applyMat 1 (QFTGateMat 1 false) (basisState 1))
        = basisState 1 :=
  ⟨by decide, by decide, C9_qft_roundtrip 1 (by decide) false 1 (by decide)⟩

/-- C10: for constant `0` the classical builders produce the digit list `[0]`,
hence no rotation at all, and both the phase gate and the full classical adder
act as the identity on every state. -/
theorem C10_zero_constant_identity (T : ℕ) (hT : 0 < T) (v : ℕ → ℂ) (b : ℕ) :
    pyBinDigits 0 = [0]
    ∧ ClassicalAdderPhaseOps T (pyBinDigits 0) = []
    ∧ applyPList (ClassicalAdderPhaseOps T (pyBinDigits 0)) v b = v b
    ∧ ClassicalAdderApply T 0 v b = v b := by
  have hNpos : 0 < 2 ^ T := two_pow_pos T
  have hd : pyBinDigits 0 = [0] := rfl
  have hops : ClassicalAdderPhaseOps T (pyBinDigits 0) = [] := by
    unfold ClassicalAdderPhaseOps
    refine List.flatMap_eq_nil_iff.mpr fun i _ => ?_
    have hlen : (pyBinDigits 0).length = 1 := rfl
    rw [hlen, Nat.min_eq_right (by omega : 1 ≤ i + 1)]
    rfl
  have happ : applyPList (ClassicalAdderPhaseOps T (pyBinDigits 0)) v b = v b := by
    rw [hops]
    rfl
  refine ⟨hd, hops, happ, ?_⟩
  rw [classicalAdder_apply]
  have hre : ∀ x ∈ range (2 ^ T),
      (if (x + 0) % 2 ^ T = b % 2 ^ T then (1 : ℂ) else 0) * v (x + 2 ^ T * (b / 2 ^ T))
        = if x = b % 2 ^ T then v (x + 2 ^ T * (b / 2 ^ T)) else 0 := by
    intro x hx
    have hxlt := mem_range.mp hx
    have hc : (x + 0) % 2 ^ T = b % 2 ^ T ↔ x = b % 2 ^ T := by
      rw [Nat.add_zero, Nat.mod_eq_of_lt hxlt]
    rw [if_congr hc rfl rfl]
    split <;> simp
  rw [Finset.sum_congr rfl hre, Finset.sum_ite_eq' (range (2 ^ T)) (b % 2 ^ T),
    if_pos (mem_range.mpr (Nat.mod_lt _ hNpos)), Nat.mod_add_div b (2 ^ T)]

theorem C10_zero_constant_identity_witness :
    0 < 1
    ∧ (pyBinDigits 0 = [0]
      ∧ ClassicalAdderPhaseOps 1 (pyBinDigits 0) = []
      ∧ applyPList (ClassicalAdderPhaseOps 1 (pyBinDigits 0)) (basisState 0) 0 = basisState 0 0
      ∧ ClassicalAdderApply 1 0 (basisState 0) 0 = basisState 0 0) :=
  ⟨by decide, C10_zero_constant_identity 1 (by decide) (basisState 0) 0⟩

/-! ### Linearity, and the state evolution of `main` -/

lemma applyMat_add_smul (n : ℕ) (M : ℕ → ℕ → ℂ) (a d : ℂ) (v w : ℕ → ℂ) :
    applyMat n M (fun c => a * v c + d * w c)
      = fun c => a * applyMat n M v c + d * applyMat n M w c := by
  funext c
  unfold applyMat
  rw [Finset.mul_sum, Finset.mul_sum, ← Finset.sum_add_distrib]
  exact Finset.sum_congr rfl fun x _ => by ring

lemma applyCPList_add_smul (ops : List CPOp) (a d : ℂ) (v w : ℕ → ℂ) :
    applyCPList ops (fun c => a * v c + d * w c)
      = fun c => a * applyCPList ops v c + d * applyCPList ops w c := by
  funext c
  rw [applyCPList_eq, applyCPList_eq, applyCPList_eq]
  ring

lemma applyPList_add_smul (ops : List POp) (a d : ℂ) (v w : ℕ → ℂ) :
    applyPList ops (fun c => a * v c + d * w c)
      = fun c => a * applyPList ops v c + d * applyPList ops w c := by
  funext c
  rw [applyPList_eq, applyPList_eq, applyPList_eq]
  ring

lemma adderGateApply_add_smul (T S : ℕ) (a d : ℂ) (v w : ℕ → ℂ) :
    AdderGateApply T S (fun c => a * v c + d * w c)
      = fun c => a * AdderGateApply T S v c + d * AdderGateApply T S w c := by
  unfold AdderGateApply
  rw [applyMat_add_smul, applyCPList_add_smul, applyMat_add_smul]

lemma classicalAdderApply_add_smul (T k : ℕ) (a d : ℂ) (v w : ℕ → ℂ) :
    ClassicalAdderApply T k (fun c => a * v c + d * w c)
      = fun c => a * ClassicalAdderApply T k v c + d * ClassicalAdderApply T k w c := by
  unfold ClassicalAdderApply
  rw [applyMat_add_smul, applyPList_add_smul, applyMat_add_smul]

lemma mainInit_eval : mainInitState
    = fun b => (invSqrtN 1 : ℂ) * basisState 0 b + (invSqrtN 1 : ℂ) * basisState 8 b := by
  funext b
  unfold mainInitState applyH bitOff bitOn basisState
  by_cases h : b.testBit 3
  · have hb8 : 8 ≤ b := by
      have h' : b / 8 % 2 = 1 := by
        have h'' := h
        rw [Nat.testBit_to_div_mod] at h''
        norm_num at h''
        exact h''
      omega
    have hbne0 : ¬(b = 0) := by omega
    have hcong : (b - 2 ^ 3 = 0) ↔ (b = 8) := by
      have h8 : (2 : ℕ) ^ 3 = 8 := by norm_num
      rw [h8]
      omega
    rw [if_pos h, if_pos h, if_pos h, if_neg hbne0, if_congr hcong rfl rfl]
    ring
  · have hbne8 : ¬(b = 8) := fun hc => h (by rw [hc]; decide)
    have hne : ¬(b + 2 ^ 3 = 0) := by
      have h8 : (2 : ℕ) ^ 3 = 8 := by norm_num
      rw [h8]
      omega
    rw [if_neg h, if_neg h, if_neg h, if_neg hne, if_neg hbne8]
    ring

lemma mainFinal_eval : mainFinalState
    = fun b => (invSqrtN 1 : ℂ) * basisState 3 b + (invSqrtN 1 : ℂ) * basisState 12 b := by
  unfold mainFinalState
  rw [mainInit_eval, adderGateApply_add_smul 3 2 _ _ (basisState 0) (basisState 8)]
  have h1 : AdderGateApply 3 2 (basisState 0) = basisState 0 := by
    have h := adderGate_basis 3 2 0 0 (by norm_num) (by norm_num)
    norm_num at h
    exact h
  have h2 : AdderGateApply 3 2 (basisState 8) = basisState 9 := by
    have h := adderGate_basis 3 2 0 1 (by norm_num) (by norm_num)
    norm_num at h
    exact h
  rw [h1, h2, classicalAdderApply_add_smul 3 1 _ _ (basisState 0) (basisState 9)]
  have h3 : ClassicalAdderApply 3 1 (basisState 0) = basisState 1 := by
    have h := classicalAdder_basis 3 1 0
    norm_num at h
    exact h
  have h4 : ClassicalAdderApply 3 1 (basisState 9) = basisState 10 := by
    have h := classicalAdder_basis 3 1 9
    norm_num at h
    exact h
  rw [h3, h4, classicalAdderApply_add_smul 3 2 _ _ (basisState 1) (basisState 10)]
  have h5 : ClassicalAdderApply 3 2 (basisState 1) = basisState 3 := by
    have h := classicalAdder_basis 3 2 1
    norm_num at h
    exact h
  have h6 : ClassicalAdderApply 3 2 (basisState 10) = basisState 12 := by
    have h := classicalAdder_basis 3 2 10
    norm_num at h
    exact h
  rw [h5, h6]

/-- C4: in `main`'s circuit (T = 3, S = 2, target `|0>`, summand's lowest qubit
in equal superposition, then `AdderGate(3,2)`, `ClassicalAdderGate(3,1)`,
`ClassicalAdderGate(3,2)`), the state before measurement is the equal
superposition of `target = 3, summand = 0` and `target = 4, summand = 1`; the
target register measures 3 or 4, each with probability 1/2, and in each branch
the summand register holds its prepared value. -/
theorem C4_main_scenario :
    mainFinalState
      = (fun b => (invSqrtN 1 : ℂ) * basisState 3 b + (invSqrtN 1 : ℂ) * basisState 12 b)
    ∧ targetProb 3 2 mainFinalState 3 = 1 / 2
    ∧ targetProb 3 2 mainFinalState 4 = 1 / 2
    ∧ measureProb mainFinalState (3 + 2 ^ 3 * 0) = 1 / 2
    ∧ measureProb mainFinalState (4 + 2 ^ 3 * 1) = 1 / 2 := by
  have hns : Complex.normSq ((invSqrtN 1 : ℝ) : ℂ) = 1 / 2 := by
    rw [Complex.normSq_ofReal]
    unfold invSqrtN
    rw [← mul_inv, Real.mul_self_sqrt (by positivity)]
    norm_num
  have hfin := mainFinal_eval
  refine ⟨hfin, ?_, ?_, ?_, ?_⟩
  · rw [hfin]
    unfold targetProb measureProb
    norm_num [Finset.sum_range_succ, basisState, hns]
  · rw [hfin]
    unfold targetProb measureProb
    norm_num [Finset.sum_range_succ, basisState, hns]
  · rw [hfin]
    unfold measureProb
    norm_num [basisState, hns]
  · rw [hfin]
    unfold measureProb
    norm_num [basisState, hns]

end QuantumBlocks
